import Mathlib

/-!
Verification of the scanner repository's chapter segmentation (src/crop.go)
and correction application (src/correct.go) against its specification.

Texts are modelled as `List Char` (one entry per rune).  All inputs the
claims mention are ASCII, where Go's byte offsets and rune offsets agree;
comments note the one place (`isChapterStart`'s length check) where the
byte/rune distinction is provably irrelevant to the boolean outcome.
A Go runtime panic (out-of-range string slicing) is modelled as `none`.
-/

/-- Go's `unicode.IsSpace`: the White_Space code points. -/
def goIsSpace (c : Char) : Bool :=
  decide (c = ' ' ∨ c = '\t' ∨ c = '\n' ∨ c = '\x0b' ∨ c = '\x0c' ∨ c = '\r' ∨
    c = '\u0085' ∨ c = ' ' ∨ c = ' ' ∨
    (' ' ≤ c ∧ c ≤ ' ') ∨ c = ' ' ∨ c = ' ' ∨
    c = ' ' ∨ c = ' ' ∨ c = '　')

/-- Go `strings.TrimSpace`: drop whitespace from both ends. -/
def trimSpace (l : List Char) : List Char :=
  ((l.dropWhile goIsSpace).reverse.dropWhile goIsSpace).reverse

/-- Go `strings.Split(s, "\n")`: split into lines (never returns `[]`;
splitting the empty string gives `[[]]`). -/
def splitNl : List Char → List (List Char)
  | [] => [[]]
  | c :: rest =>
    let r := splitNl rest
    if c = '\n' then [] :: r
    else (c :: r.headI) :: r.tail

/-- Go `strings.Join(lines, "\n")`. -/
def joinNl : List (List Char) → List Char
  | [] => []
  | [l] => l
  | l :: ls => l ++ '\n' :: joinNl ls

/-- Go `strings.TrimPrefix(l, p)`: drop `p` from the front when it is a
prefix, otherwise return `l` unchanged. -/
def dropPfx (p l : List Char) : List Char :=
  if p.isPrefixOf l then l.drop p.length else l

/-- Go `strings.Contains(text, "\n\n\n")`: some window of three consecutive
characters is three newlines. -/
def containsTriple : List Char → Bool
  | c :: d :: e :: rest =>
    (c == '\n' && d == '\n' && e == '\n') || containsTriple (d :: e :: rest)
  | _ => false

/-- Go `strings.ReplaceAll(text, "\n\n\n", "\n\n")`: one left-to-right
pass replacing non-overlapping occurrences. -/
def replaceAll3 : List Char → List Char
  | [] => []
  | [c] => [c]
  | [c, d] => [c, d]
  | c :: d :: e :: rest =>
    if c == '\n' && d == '\n' && e == '\n' then '\n' :: '\n' :: replaceAll3 rest
    else c :: replaceAll3 (d :: e :: rest)

/-- The `for strings.Contains … ReplaceAll` loop of `cleanText`, with
explicit fuel.  Each iteration strictly shrinks the text (proved below in
`replaceAll3_length_lt`), so `fuel = length` always reaches the exit
condition; `cleanText` instantiates it that way. -/
def cleanTextFuel : Nat → List Char → List Char
  | 0, l => l
  | fuel + 1, l => if containsTriple l then cleanTextFuel fuel (replaceAll3 l) else l

/-- `cleanText` from src/crop.go: repeatedly replace `"\n\n\n"` by
`"\n\n"` until no triple newline remains. -/
def cleanText (l : List Char) : List Char :=
  cleanTextFuel l.length l

/-- `getFirstLine` from src/crop.go: the first line whose trim is
non-empty, returned trimmed; `[]` when every line is blank. -/
def getFirstLine (t : List Char) : List Char :=
  match (splitNl t).find? (fun l => !(trimSpace l).isEmpty) with
  | some l => trimSpace l
  | none => []

/-- The literal `"Chapter "` prefix used by `isChapterStart`. -/
def chapterLit : List Char := "Chapter ".toList

/-- `isChapterStart` from src/crop.go.  The Go code compares
`len(after) <= 3` on bytes; here `after.length` counts runes.  The two
agree whenever the digit test can succeed (ASCII digits are one byte), and
when they disagree (`after` holding a multi-byte rune) both versions
return `false`, the Go one via the rune loop or the length test. -/
def isChapterStart (t : List Char) : Bool :=
  let firstLine := getFirstLine t
  if firstLine.isEmpty then false
  else
    let trimmed := trimSpace firstLine
    if chapterLit.isPrefixOf trimmed then
      let after := trimSpace (dropPfx chapterLit trimmed)
      if 0 < after.length ∧ after.length ≤ 3 then
        after.all fun c => decide ('0' ≤ c) && decide (c ≤ '9')
      else false
    else false

/-- The first-non-blank-line scan of `ensureChapterHeading`
(`firstLineIdx`, `-1` becoming `none`). -/
def firstNonBlankIdx (lines : List (List Char)) : Option Nat :=
  lines.findIdx? fun l => !(trimSpace l).isEmpty

/-- `ensureChapterHeading` from src/crop.go.  The `chapterNum` argument is
accepted and ignored exactly as in the source.  The source's
`len(lines) == 0` early return is unreachable (`strings.Split` never
yields an empty slice) and is not modelled. -/
def ensureChapterHeading (t : List Char) (_chapterNum : Nat) : List Char :=
  let lines := splitNl t
  match firstNonBlankIdx lines with
  | none => t
  | some i =>
    let firstLine := trimSpace (lines.getD i [])
    let stripped :=
      trimSpace (dropPfx ['#'] (dropPfx ['#', '#'] (dropPfx ['#', '#', '#'] firstLine)))
    joinNl (lines.set i ("# ".toList ++ stripped))

/-- A ChapterDocument: ordinal and heading-normalized text, as persisted
by `processChapter`. -/
structure Chapter where
  ordinal : Nat
  text : List Char
deriving DecidableEq

/-- The mutable state of the segmentation loop in `main` (src/crop.go):
`currentChapter`, `chapterCount`, the emitted chapter files, and
`allCorrectedText`. -/
structure SegState where
  buffer : List Char
  chapterCount : Nat
  docs : List Chapter
  combined : List Char
deriving DecidableEq

/-- The separator `"\n\n---\n\n"` appended after each chapter in
`allCorrectedText`. -/
def sepStr : List Char := "\n\n---\n\n".toList

/-- The `processChapter` closure of `main` (src/crop.go): skip when the
buffer is empty, otherwise bump the ordinal, normalize the heading, emit
the document and append it plus separator to the combined text. -/
def processChapter (s : SegState) : SegState :=
  if s.buffer.isEmpty then s
  else
    let n := s.chapterCount + 1
    let text := ensureChapterHeading s.buffer n
    { buffer := [],
      chapterCount := n,
      docs := s.docs ++ [⟨n, text⟩],
      combined := s.combined ++ text ++ sepStr }

/-- The per-page body of the loop in `main` (src/crop.go), run once per
successfully OCR'd page-half: clean the text, flush the open chapter when
the page is a chapter start, then append the text with a guaranteed
trailing newline. -/
def processPage (s : SegState) (raw : List Char) : SegState :=
  let t := cleanText raw
  let s1 := if isChapterStart t then processChapter s else s
  { s1 with
    buffer := s1.buffer ++ t ++ (if t.getLast? = some '\n' then [] else ['\n']) }

/-- The initial segmentation state. -/
def initState : SegState := ⟨[], 0, [], []⟩

/-- The whole segmentation pass of `main` (src/crop.go): process every
page in order, then the final `processChapter()` flush. -/
def segmentPages (pages : List (List Char)) : SegState :=
  processChapter (pages.foldl processPage initState)

/-- Go's `int` is a 64-bit two's-complement integer, so addition wraps:
`wrap64 n` reduces `n` into `[-9223372036854775808, 9223372036854775808)`
(that is, `[-2^63, 2^63)`), the value a Go `int` addition produces. -/
def wrap64 (n : Int) : Int :=
  (n + 9223372036854775808) % 18446744073709551616 - 9223372036854775808

/-- One entry of `LanguageToolResponse.Matches` (src/correct.go), keeping
the fields the application loop reads.  Go decodes `Offset` and `Length`
into `int` (64-bit, so decoded values lie in `[-2^63, 2^63)`); they are
`Int` here, with the loop's `offset+length` addition wrapped by `wrap64`
exactly as Go's `int` addition wraps. -/
structure LtMatch where
  offset : Int
  length : Int
  replacements : List (List Char)
deriving DecidableEq

/-- The application loop of `correctWithLanguageTool` (src/correct.go,
lines 149-163), one iteration per match in list order:
skip matches without replacements; under the source's guard
`offset+length <= len(corrected)` evaluate
`corrected[:offset] + replacement + corrected[offset+length:]`.
The `offset+length` addition is Go `int` arithmetic and wraps (`wrap64`),
so e.g. `offset = 2^63 - 1, length = 1` passes the guard with a wrapped
negative sum.  `none` models the Go runtime panic raised by either slice
expression when its index is outside `0..len(corrected)`. -/
def applyLoop : List Char → Nat → List LtMatch → Option (List Char × Nat)
  | corrected, cnt, [] => some (corrected, cnt)
  | corrected, cnt, m :: rest =>
    if m.replacements.isEmpty then applyLoop corrected cnt rest
    else if wrap64 (m.offset + m.length) ≤ (corrected.length : Int) then
      if 0 ≤ m.offset ∧ m.offset ≤ (corrected.length : Int) ∧
          0 ≤ wrap64 (m.offset + m.length) then
        applyLoop
          (corrected.take m.offset.toNat ++ m.replacements.headI ++
            corrected.drop (wrap64 (m.offset + m.length)).toNat)
          (cnt + 1) rest
      else none
    else applyLoop corrected cnt rest

/-- The correction applier on an already-sorted match list: the loop of
`correctWithLanguageTool` started with `correctionCount = 0`. -/
def applyMatches (text : List Char) (ms : List LtMatch) : Option (List Char × Nat) :=
  applyLoop text 0 ms

/-- Modelled from the spec (refinement target for claim C6): a single
left-to-right pass over the text that copies every character unchanged and
in order, except that newline characters beyond the second of a
consecutive run are dropped; `k` counts the newlines already kept in the
current run. -/
def collapseRunsAux : Nat → List Char → List Char
  | _, [] => []
  | k, c :: rest =>
    if c == '\n' then
      if 2 ≤ k then collapseRunsAux k rest
      else '\n' :: collapseRunsAux (k + 1) rest
    else c :: collapseRunsAux 0 rest

/-- Modelled from the spec: collapse every run of three or more newlines
to exactly two, leaving everything else untouched. -/
def collapseRuns (l : List Char) : List Char := collapseRunsAux 0 l

/-- Drop at most `budget` leading `'#'` characters, stopping early at the
first non-`'#'`. -/
def dropHashesUpTo : Nat → List Char → List Char
  | 0, l => l
  | _, [] => []
  | budget + 1, c :: rest => if c = '#' then dropHashesUpTo budget rest else c :: rest

/-- Modelled from the spec's words for claim C5: locate the first
non-blank line, strip up to `hashBudget` leading `'#'` characters and
surrounding whitespace from it, rewrite that line as `"# " + stripped`,
and leave every other line unchanged.  The claim asserts the code equals
this at `hashBudget = 3`. -/
def ensureChapterHeadingSpec (hashBudget : Nat) (t : List Char) (_chapterNum : Nat) :
    List Char :=
  let lines := splitNl t
  match firstNonBlankIdx lines with
  | none => t
  | some i =>
    let firstLine := trimSpace (lines.getD i [])
    let stripped := trimSpace (dropHashesUpTo hashBudget firstLine)
    joinNl (lines.set i ("# ".toList ++ stripped))

/-- Modelled from the spec's words for claim C8: the first non-blank line,
trimmed, begins with the literal `"Chapter "`, and the remainder after
that prefix, once trimmed, is non-empty, at most 3 characters long and
consists entirely of ASCII digits. -/
def chapterStartSpec (t : List Char) : Prop :=
  chapterLit <+: trimSpace (getFirstLine t) ∧
  trimSpace ((trimSpace (getFirstLine t)).drop 8) ≠ [] ∧
  (trimSpace ((trimSpace (getFirstLine t)).drop 8)).length ≤ 3 ∧
  ∀ c ∈ trimSpace ((trimSpace (getFirstLine t)).drop 8), '0' ≤ c ∧ c ≤ '9'

/-- Modelled from the spec's words for claim C9 (amended form): the
combined artifact as the concatenation of every document followed by the
separator. -/
def combinedJoined (docs : List Chapter) : List Char :=
  (docs.map fun d => d.text ++ sepStr).flatten


lemma replaceAll3_length_le (l : List Char) : (replaceAll3 l).length ≤ l.length := by
  induction l using replaceAll3.induct with
  | case1 => simp [replaceAll3]
  | case2 c => simp [replaceAll3]
  | case3 c d => simp [replaceAll3]
  | case4 c d e rest h ih =>
    simp [replaceAll3, h]
    omega
  | case5 c d e rest h ih =>
    simp only [List.length_cons] at ih
    simp [replaceAll3, h]
    omega

lemma containsTriple_cons (a : Char) (l : List Char) (h : containsTriple l = true) :
    containsTriple (a :: l) = true := by
  match l with
  | [] => simp [containsTriple] at h
  | [x] => simp [containsTriple] at h
  | x :: y :: rest => simp [containsTriple, h]

lemma containsTriple_append (pre l : List Char) (h : containsTriple l = true) :
    containsTriple (pre ++ l) = true := by
  induction pre with
  | nil => simpa
  | cons a pre ih => exact containsTriple_cons a _ ih

lemma replaceAll3_length_lt (l : List Char) :
    containsTriple l = true → (replaceAll3 l).length < l.length := by
  induction l using replaceAll3.induct with
  | case1 => intro h; simp [containsTriple] at h
  | case2 c => intro h; simp [containsTriple] at h
  | case3 c d => intro h; simp [containsTriple] at h
  | case4 c d e rest h ih =>
    intro _
    have hle := replaceAll3_length_le rest
    simp [replaceAll3, h]
    omega
  | case5 c d e rest h ih =>
    intro htr
    have htail : containsTriple (d :: e :: rest) = true := by
      simp [containsTriple] at htr
      rcases htr with hhead | htail
      · exfalso
        apply h
        simp only [Bool.and_eq_true, beq_iff_eq]
        simpa using hhead
      · exact htail
    have hlt := ih htail
    simp only [List.length_cons] at hlt
    simp [replaceAll3, h]
    omega

lemma collapseRunsAux_replaceAll3 (l : List Char) :
    ∀ k, collapseRunsAux k (replaceAll3 l) = collapseRunsAux k l := by
  induction l using replaceAll3.induct with
  | case1 => intro k; simp [replaceAll3]
  | case2 c => intro k; simp [replaceAll3]
  | case3 c d => intro k; simp [replaceAll3]
  | case4 c d e rest h ih =>
    intro k
    obtain ⟨⟨hc, hd⟩, he⟩ : (c = '\n' ∧ d = '\n') ∧ e = '\n' := by simpa using h
    subst hc; subst hd; subst he
    rw [show replaceAll3 ('\n' :: '\n' :: '\n' :: rest) = '\n' :: '\n' :: replaceAll3 rest
      from by simp [replaceAll3]]
    match k with
    | 0 => simpa [collapseRunsAux] using ih 2
    | 1 => simpa [collapseRunsAux] using ih 2
    | k + 2 => simpa [collapseRunsAux, show 2 ≤ k + 2 by omega] using ih (k + 2)
  | case5 c d e rest h ih =>
    intro k
    rw [show replaceAll3 (c :: d :: e :: rest) = c :: replaceAll3 (d :: e :: rest)
      from by simp [replaceAll3, h]]
    by_cases hc : c = '\n'
    · subst hc
      by_cases hk : 2 ≤ k
      · simpa [collapseRunsAux, hk] using ih k
      · simpa [collapseRunsAux, hk] using ih (k + 1)
    · simpa [collapseRunsAux, hc] using ih 0

lemma collapseRunsAux_eq_self (l : List Char) :
    ∀ k : Nat, k ≤ 2 → containsTriple (List.replicate k '\n' ++ l) = false →
      collapseRunsAux k l = l := by
  induction l with
  | nil => intro k _ _; simp [collapseRunsAux]
  | cons c rest ih =>
    intro k hk h
    by_cases hc : c = '\n'
    · subst hc
      interval_cases k
      · simp only [collapseRunsAux, beq_self_eq_true, if_true]
        simp only [show ¬(2 ≤ 0) by omega, if_false]
        have h1 : containsTriple (List.replicate 1 '\n' ++ rest) = false := by
          simpa [List.replicate] using h
        rw [ih 1 (by omega) h1]
      · simp only [collapseRunsAux, beq_self_eq_true, if_true]
        simp only [show ¬(2 ≤ 1) by omega, if_false]
        have h2 : containsTriple (List.replicate 2 '\n' ++ rest) = false := by
          simpa [List.replicate] using h
        rw [ih 2 (by omega) h2]
      · exfalso
        have : containsTriple (List.replicate 2 '\n' ++ '\n' :: rest) = true := by
          simp [List.replicate, containsTriple]
        rw [this] at h
        exact Bool.true_eq_false.mp h
    · have hrest : containsTriple rest = false := by
        cases hr : containsTriple rest
        · rfl
        · exfalso
          have := containsTriple_append (List.replicate k '\n') _ (containsTriple_cons c _ hr)
          rw [this] at h
          exact Bool.true_eq_false.mp h
      simpa [collapseRunsAux, hc] using ih 0 (by omega) (by simpa using hrest)

lemma cleanTextFuel_eq_collapseRuns :
    ∀ (fuel : Nat) (l : List Char), l.length ≤ fuel → cleanTextFuel fuel l = collapseRuns l := by
  intro fuel
  induction fuel with
  | zero =>
    intro l hl
    have : l = [] := List.eq_nil_of_length_eq_zero (Nat.le_zero.mp hl)
    subst this
    simp [cleanTextFuel, collapseRuns, collapseRunsAux]
  | succ fuel ih =>
    intro l hl
    by_cases h : containsTriple l = true
    · have hlt := replaceAll3_length_lt l h
      rw [show cleanTextFuel (fuel + 1) l = cleanTextFuel fuel (replaceAll3 l)
        from by simp [cleanTextFuel, h]]
      rw [ih (replaceAll3 l) (by omega)]
      exact collapseRunsAux_replaceAll3 l 0
    · have hf : containsTriple l = false := Bool.not_eq_true _ |>.mp h
      rw [show cleanTextFuel (fuel + 1) l = l from by simp [cleanTextFuel, hf]]
      exact (collapseRunsAux_eq_self l 0 (by omega) (by simpa using hf)).symm

lemma cleanText_eq_collapseRuns (l : List Char) : cleanText l = collapseRuns l :=
  cleanTextFuel_eq_collapseRuns l.length l le_rfl

lemma containsTriple_cleanTextFuel :
    ∀ (fuel : Nat) (l : List Char), l.length ≤ fuel →
      containsTriple (cleanTextFuel fuel l) = false := by
  intro fuel
  induction fuel with
  | zero =>
    intro l hl
    have : l = [] := List.eq_nil_of_length_eq_zero (Nat.le_zero.mp hl)
    subst this
    simp [cleanTextFuel, containsTriple]
  | succ fuel ih =>
    intro l hl
    by_cases h : containsTriple l = true
    · have hlt := replaceAll3_length_lt l h
      rw [show cleanTextFuel (fuel + 1) l = cleanTextFuel fuel (replaceAll3 l)
        from by simp [cleanTextFuel, h]]
      exact ih (replaceAll3 l) (by omega)
    · have hf : containsTriple l = false := Bool.not_eq_true _ |>.mp h
      simp [cleanTextFuel, hf]

lemma containsTriple_cleanText (l : List Char) : containsTriple (cleanText l) = false :=
  containsTriple_cleanTextFuel l.length l le_rfl

lemma cleanTextFuel_of_no_triple (fuel : Nat) (l : List Char)
    (h : containsTriple l = false) : cleanTextFuel fuel l = l := by
  cases fuel <;> simp [cleanTextFuel, h]

lemma cleanText_idem_aux (l : List Char) : cleanText (cleanText l) = cleanText l :=
  cleanTextFuel_of_no_triple (cleanText l).length (cleanText l) (containsTriple_cleanText l)

lemma wrap64_eq_self (n : Int) (h1 : -9223372036854775808 ≤ n)
    (h2 : n < 9223372036854775808) : wrap64 n = n := by
  unfold wrap64
  rw [Int.emod_eq_of_lt (by omega) (by omega)]
  omega

lemma applyLoop_shift (ms : List LtMatch) :
    ∀ (text : List Char) (c : Nat),
      applyLoop text c ms = Option.map (fun p => (p.1, p.2 + c)) (applyLoop text 0 ms) := by
  induction ms with
  | nil => intro text c; simp [applyLoop]
  | cons m rest ih =>
    intro text c
    by_cases h1 : m.replacements.isEmpty
    · simp only [applyLoop, h1, if_true]
      exact ih text c
    · by_cases h2 : wrap64 (m.offset + m.length) ≤ (text.length : Int)
      · by_cases h3 : 0 ≤ m.offset ∧ m.offset ≤ (text.length : Int) ∧
            0 ≤ wrap64 (m.offset + m.length)
        · simp only [applyLoop, h1, h2, h3, if_true, if_false]
          rw [ih _ (c + 1), ih _ 1]
          cases applyLoop
              (text.take m.offset.toNat ++ m.replacements.headI ++
                text.drop (wrap64 (m.offset + m.length)).toNat) 0 rest with
          | none => simp
          | some p => simp; omega
        · simp [applyLoop, h1, h2, h3]
      · simp only [applyLoop, h1, h2, if_false]
        exact ih text c

lemma applyLoop_total (ms : List LtMatch) :
    ∀ text : List Char,
      (∀ m ∈ ms, 0 ≤ m.offset ∧ 0 ≤ m.length ∧
        m.offset + m.length < 9223372036854775808) →
      (∃ res cnt, applyLoop text 0 ms = some (res, cnt) ∧ cnt ≤ ms.length) ∧
        applyLoop text 0 (ms.filter fun m => !m.replacements.isEmpty) =
          applyLoop text 0 ms := by
  induction ms with
  | nil => intro text _; exact ⟨⟨text, 0, rfl, le_rfl⟩, rfl⟩
  | cons m rest ih =>
    intro text h
    obtain ⟨ho, hl, hs⟩ := h m (List.mem_cons_self m rest)
    have hw : wrap64 (m.offset + m.length) = m.offset + m.length :=
      wrap64_eq_self _ (by omega) hs
    have hrest : ∀ x ∈ rest, 0 ≤ x.offset ∧ 0 ≤ x.length ∧
        x.offset + x.length < 9223372036854775808 := fun x hx =>
      h x (List.mem_cons_of_mem m hx)
    by_cases h1 : m.replacements.isEmpty
    · have hfil : (m :: rest).filter (fun x => !x.replacements.isEmpty) =
          rest.filter (fun x => !x.replacements.isEmpty) := by
        simp [List.filter_cons, h1]
      obtain ⟨⟨res, cnt, heq, hle⟩, hfeq⟩ := ih text hrest
      refine ⟨⟨res, cnt, ?_, ?_⟩, ?_⟩
      · simpa [applyLoop, h1] using heq
      · exact hle.trans (by simp)
      · rw [hfil, hfeq]
        simp [applyLoop, h1]
    · by_cases h2 : wrap64 (m.offset + m.length) ≤ (text.length : Int)
      · have h2' : m.offset + m.length ≤ (text.length : Int) := hw ▸ h2
        have h3 : 0 ≤ m.offset ∧ m.offset ≤ (text.length : Int) ∧
            0 ≤ wrap64 (m.offset + m.length) := by
          refine ⟨ho, by omega, ?_⟩
          rw [hw]
          omega
        obtain ⟨⟨res, cnt, heq, hle⟩, hfeq⟩ :=
          ih (text.take m.offset.toNat ++ m.replacements.headI ++
            text.drop (wrap64 (m.offset + m.length)).toNat) hrest
        simp only [List.append_assoc] at heq hfeq
        have hfil : (m :: rest).filter (fun x => !x.replacements.isEmpty) =
            m :: rest.filter (fun x => !x.replacements.isEmpty) := by
          simp [List.filter_cons, h1]
        refine ⟨⟨res, cnt + 1, ?_, ?_⟩, ?_⟩
        · simp [applyLoop, h1, h2, h3]
          rw [applyLoop_shift, heq]
          rfl
        · simp
          omega
        · rw [hfil]
          simp [applyLoop, h1, h2, h3]
          rw [applyLoop_shift, applyLoop_shift rest, hfeq]
      · obtain ⟨⟨res, cnt, heq, hle⟩, hfeq⟩ := ih text hrest
        have hfil : (m :: rest).filter (fun x => !x.replacements.isEmpty) =
            m :: rest.filter (fun x => !x.replacements.isEmpty) := by
          simp [List.filter_cons, h1]
        refine ⟨⟨res, cnt, ?_, ?_⟩, ?_⟩
        · simpa [applyLoop, h1, h2] using heq
        · exact hle.trans (by simp)
        · rw [hfil]
          simp only [applyLoop, h1, h2, if_false]
          exact hfeq

lemma isPrefixOf_hash_false (r : List Char) (hr : r.head? ≠ some '#') (p : List Char) :
    ('#' :: p).isPrefixOf r = false := by
  cases r with
  | nil => simp [List.isPrefixOf]
  | cons c t =>
    have hc : ('#' == c) = false := by
      apply beq_eq_false_iff_ne.mpr
      intro e
      exact hr (by simp [e.symm])
    simp [List.isPrefixOf, hc]

lemma dropPfx_hash_of_head (r : List Char) (hr : r.head? ≠ some '#') (p : List Char) :
    dropPfx ('#' :: p) r = r := by
  simp [dropPfx, isPrefixOf_hash_false r hr]

lemma dropHashesUpTo_of_head (b : Nat) (r : List Char) (hr : r.head? ≠ some '#') :
    dropHashesUpTo b r = r := by
  cases b with
  | zero => cases r <;> simp [dropHashesUpTo]
  | succ b =>
    cases r with
    | nil => simp [dropHashesUpTo]
    | cons c t =>
      have hc : c ≠ '#' := by
        intro e
        exact hr (by simp [e])
      simp [dropHashesUpTo, hc]

lemma head?_dropWhile_not (p : Char → Bool) (l : List Char) :
    ∀ c, (l.dropWhile p).head? = some c → p c = false := by
  induction l with
  | nil => intro c h; simp [List.dropWhile] at h
  | cons a rest ih =>
    intro c h
    by_cases ha : p a
    · exact ih c (by simpa [List.dropWhile, ha] using h)
    · have hac : a = c := by simpa [List.dropWhile, ha] using h
      subst hac
      exact Bool.not_eq_true _ |>.mp ha

lemma stripChain_replicate (k : Nat) (r : List Char) (hr : r.head? ≠ some '#') :
    dropPfx ['#'] (dropPfx ['#', '#'] (dropPfx ['#', '#', '#']
        (List.replicate k '#' ++ r))) =
      dropHashesUpTo 6 (List.replicate k '#' ++ r) := by
  match k with
  | 0 =>
    rw [show List.replicate 0 '#' ++ r = r from by simp]
    rw [dropPfx_hash_of_head r hr, dropPfx_hash_of_head r hr, dropPfx_hash_of_head r hr,
      dropHashesUpTo_of_head 6 r hr]
  | 1 =>
    rw [show List.replicate 1 '#' ++ r = '#' :: r from by simp]
    simp [dropPfx, List.isPrefixOf, isPrefixOf_hash_false r hr, dropHashesUpTo,
      dropHashesUpTo_of_head _ r hr]
  | 2 =>
    rw [show List.replicate 2 '#' ++ r = '#' :: '#' :: r from by
      simp [List.replicate_succ]]
    simp [dropPfx, List.isPrefixOf, isPrefixOf_hash_false r hr, dropHashesUpTo,
      dropHashesUpTo_of_head _ r hr]
  | 3 =>
    rw [show List.replicate 3 '#' ++ r = '#' :: '#' :: '#' :: r from by
      simp [List.replicate_succ]]
    simp [dropPfx, List.isPrefixOf, isPrefixOf_hash_false r hr, dropHashesUpTo,
      dropHashesUpTo_of_head _ r hr]
  | 4 =>
    rw [show List.replicate 4 '#' ++ r = '#' :: '#' :: '#' :: '#' :: r from by
      simp [List.replicate_succ]]
    simp [dropPfx, List.isPrefixOf, isPrefixOf_hash_false r hr, dropHashesUpTo,
      dropHashesUpTo_of_head _ r hr]
  | 5 =>
    rw [show List.replicate 5 '#' ++ r = '#' :: '#' :: '#' :: '#' :: '#' :: r from by
      simp [List.replicate_succ]]
    simp [dropPfx, List.isPrefixOf, isPrefixOf_hash_false r hr, dropHashesUpTo,
      dropHashesUpTo_of_head _ r hr]
  | k + 6 =>
    rw [show List.replicate (k + 6) '#' ++ r =
        '#' :: '#' :: '#' :: '#' :: '#' :: '#' :: (List.replicate k '#' ++ r) from by
      simp [List.replicate_succ]]
    simp [dropPfx, List.isPrefixOf, dropHashesUpTo]

lemma stripChain (l : List Char) :
    dropPfx ['#'] (dropPfx ['#', '#'] (dropPfx ['#', '#', '#'] l)) =
      dropHashesUpTo 6 l := by
  have hsplit := List.takeWhile_append_dropWhile (p := fun c => c == '#') (l := l)
  have hrep : l.takeWhile (fun c => c == '#') =
      List.replicate (l.takeWhile (fun c => c == '#')).length '#' := by
    apply List.eq_replicate_of_mem
    intro b hb
    have := List.mem_takeWhile_imp hb
    simpa using this
  have hhead : (l.dropWhile (fun c => c == '#')).head? ≠ some '#' := by
    intro hcontra
    have := head?_dropWhile_not (fun c => c == '#') l '#' hcontra
    simp at this
  conv_lhs => rw [← hsplit, hrep]
  conv_rhs => rw [← hsplit, hrep]
  exact stripChain_replicate _ _ hhead

lemma ensureChapterHeading_eq_spec6 (t : List Char) (n : Nat) :
    ensureChapterHeading t n = ensureChapterHeadingSpec 6 t n := by
  unfold ensureChapterHeading ensureChapterHeadingSpec
  cases h : firstNonBlankIdx (splitNl t) <;> simp [h, stripChain]

lemma isChapterStart_iff (t : List Char) :
    isChapterStart t = true ↔ chapterStartSpec t := by
  have hred : isChapterStart t =
      (if (getFirstLine t).isEmpty then false
       else if chapterLit.isPrefixOf (trimSpace (getFirstLine t)) then
         (if 0 < (trimSpace (dropPfx chapterLit (trimSpace (getFirstLine t)))).length ∧
              (trimSpace (dropPfx chapterLit (trimSpace (getFirstLine t)))).length ≤ 3 then
            (trimSpace (dropPfx chapterLit (trimSpace (getFirstLine t)))).all
              (fun c => decide ('0' ≤ c) && decide (c ≤ '9'))
          else false)
       else false) := rfl
  rw [hred]
  unfold chapterStartSpec
  by_cases h0 : (getFirstLine t).isEmpty
  · have hnil : getFirstLine t = [] := List.isEmpty_iff.mp h0
    rw [if_pos h0]
    constructor
    · intro hx
      exact absurd hx Bool.false_ne_true
    · rintro ⟨hpfx, -, -, -⟩
      rw [hnil] at hpfx
      have htn : trimSpace ([] : List Char) = [] := rfl
      rw [htn] at hpfx
      exact absurd (List.prefix_nil.mp hpfx) (by decide)
  · rw [if_neg h0]
    by_cases hp : chapterLit.isPrefixOf (trimSpace (getFirstLine t))
    · rw [if_pos hp]
      have hp' : chapterLit <+: trimSpace (getFirstLine t) :=
        List.isPrefixOf_iff_prefix.mp hp
      have hdrop : dropPfx chapterLit (trimSpace (getFirstLine t)) =
          (trimSpace (getFirstLine t)).drop 8 := by
        simp [dropPfx, hp, show chapterLit.length = 8 from rfl]
      rw [hdrop]
      by_cases hlen : 0 < (trimSpace ((trimSpace (getFirstLine t)).drop 8)).length ∧
          (trimSpace ((trimSpace (getFirstLine t)).drop 8)).length ≤ 3
      · rw [if_pos hlen]
        simp only [List.all_eq_true, Bool.and_eq_true, decide_eq_true_eq]
        constructor
        · intro hall
          exact ⟨hp', List.length_pos.mp hlen.1, hlen.2, hall⟩
        · rintro ⟨-, -, -, hdig⟩
          exact hdig
      · rw [if_neg hlen]
        constructor
        · intro hx
          exact absurd hx Bool.false_ne_true
        · rintro ⟨-, hne, hle, -⟩
          exact absurd ⟨List.length_pos.mpr hne, hle⟩ hlen
    · rw [if_neg hp]
      constructor
      · intro hx
        exact absurd hx Bool.false_ne_true
      · rintro ⟨hpfx, -, -, -⟩
        exact absurd (List.isPrefixOf_iff_prefix.mpr hpfx) hp

lemma processChapter_combined (s : SegState)
    (h : s.combined = combinedJoined s.docs) :
    (processChapter s).combined = combinedJoined (processChapter s).docs := by
  unfold processChapter
  by_cases hb : s.buffer.isEmpty
  · simp only [hb, if_true]
    exact h
  · simp [hb, combinedJoined, h]

lemma processChapter_ordinals (s : SegState)
    (h1 : s.docs.map Chapter.ordinal = List.range' 1 s.docs.length)
    (h2 : s.chapterCount = s.docs.length) :
    (processChapter s).docs.map Chapter.ordinal =
        List.range' 1 (processChapter s).docs.length ∧
      (processChapter s).chapterCount = (processChapter s).docs.length := by
  unfold processChapter
  by_cases hb : s.buffer.isEmpty
  · simp only [hb, if_true]
    exact ⟨h1, h2⟩
  · simp only [hb, if_false]
    constructor
    · simp [List.range'_concat, h1, h2]
      omega
    · simp [h2]

lemma processPage_combined_ordinals (s : SegState) (p : List Char)
    (h : s.combined = combinedJoined s.docs ∧
      s.docs.map Chapter.ordinal = List.range' 1 s.docs.length ∧
      s.chapterCount = s.docs.length) :
    (processPage s p).combined = combinedJoined (processPage s p).docs ∧
      (processPage s p).docs.map Chapter.ordinal =
        List.range' 1 (processPage s p).docs.length ∧
      (processPage s p).chapterCount = (processPage s p).docs.length := by
  obtain ⟨hc, ho, hn⟩ := h
  unfold processPage
  by_cases hcs : isChapterStart (cleanText p)
  · simp only [hcs, if_true]
    obtain ⟨ho', hn'⟩ := processChapter_ordinals s ho hn
    exact ⟨processChapter_combined s hc, ho', hn'⟩
  · simp only [hcs, if_false]
    exact ⟨hc, ho, hn⟩

lemma foldl_combined_ordinals (pages : List (List Char)) :
    ∀ s : SegState,
      (s.combined = combinedJoined s.docs ∧
        s.docs.map Chapter.ordinal = List.range' 1 s.docs.length ∧
        s.chapterCount = s.docs.length) →
      ((pages.foldl processPage s).combined =
          combinedJoined (pages.foldl processPage s).docs ∧
        (pages.foldl processPage s).docs.map Chapter.ordinal =
          List.range' 1 (pages.foldl processPage s).docs.length ∧
        (pages.foldl processPage s).chapterCount =
          (pages.foldl processPage s).docs.length) := by
  induction pages with
  | nil => intro s h; exact h
  | cons p rest ih =>
    intro s h
    rw [List.foldl_cons]
    exact ih (processPage s p) (processPage_combined_ordinals s p h)

lemma segmentPages_combined (pages : List (List Char)) :
    (segmentPages pages).combined = combinedJoined (segmentPages pages).docs ∧
      (segmentPages pages).docs.map Chapter.ordinal =
        List.range' 1 (segmentPages pages).docs.length := by
  unfold segmentPages
  have hinit : initState.combined = combinedJoined initState.docs ∧
      initState.docs.map Chapter.ordinal = List.range' 1 initState.docs.length ∧
      initState.chapterCount = initState.docs.length := by
    refine ⟨rfl, ?_, rfl⟩
    simp [initState, combinedJoined]
  obtain ⟨hc, ho, hn⟩ := foldl_combined_ordinals pages initState hinit
  obtain ⟨ho', -⟩ := processChapter_ordinals _ ho hn
  exact ⟨processChapter_combined _ hc, ho'⟩

lemma collapseRunsAux_all (P : Char → Bool) (l : List Char) :
    ∀ k, l.all P = true → (collapseRunsAux k l).all P = true := by
  induction l with
  | nil => intro k _; simp [collapseRunsAux]
  | cons c rest ih =>
    intro k h
    simp only [List.all_cons, Bool.and_eq_true] at h
    obtain ⟨hc, hr⟩ := h
    by_cases hcn : c = '\n'
    · subst hcn
      by_cases hk : 2 ≤ k
      · simpa [collapseRunsAux, hk] using ih k hr
      · simpa [collapseRunsAux, hk, hc] using ih (k + 1) hr
    · simpa [collapseRunsAux, hcn, hc] using ih 0 hr

lemma cleanText_all (P : Char → Bool) (l : List Char) (h : l.all P = true) :
    (cleanText l).all P = true := by
  rw [cleanText_eq_collapseRuns]
  exact collapseRunsAux_all P l 0 h

lemma trimSpace_of_all_space (l : List Char) (h : l.all goIsSpace = true) :
    trimSpace l = [] := by
  have h1 : l.dropWhile goIsSpace = [] := by
    apply List.dropWhile_eq_nil_iff.mpr
    intro x hx
    exact List.all_eq_true.mp h x hx
  simp [trimSpace, h1]

lemma splitNl_ne_nil (l : List Char) : splitNl l ≠ [] := by
  cases l with
  | nil => simp [splitNl]
  | cons c rest =>
    simp only [splitNl]
    split <;> simp

lemma splitNl_all (P : Char → Bool) (l : List Char) :
    l.all P = true → ∀ s ∈ splitNl l, s.all P = true := by
  induction l with
  | nil =>
    intro _ s hs
    simp [splitNl] at hs
    subst hs
    simp
  | cons c rest ih =>
    intro h s hs
    simp only [List.all_cons, Bool.and_eq_true] at h
    obtain ⟨hc, hr⟩ := h
    simp only [splitNl] at hs
    by_cases hcn : c = '\n'
    · rw [if_pos hcn] at hs
      rcases List.mem_cons.mp hs with rfl | hs
      · simp
      · exact ih hr s hs
    · rw [if_neg hcn] at hs
      rcases List.mem_cons.mp hs with rfl | hs
      · simp only [List.all_cons, Bool.and_eq_true]
        refine ⟨hc, ?_⟩
        cases hsp : splitNl rest with
        | nil => exact absurd hsp (splitNl_ne_nil rest)
        | cons hd tl =>
          have : hd ∈ splitNl rest := by
            rw [hsp]
            exact List.mem_cons_self hd tl
          simpa [hsp] using ih hr hd this
      · exact ih hr s (List.mem_of_mem_tail hs)

lemma getFirstLine_of_all_space (t : List Char) (h : t.all goIsSpace = true) :
    getFirstLine t = [] := by
  unfold getFirstLine
  have hfind : (splitNl t).find? (fun l => !(trimSpace l).isEmpty) = none := by
    apply List.find?_eq_none.mpr
    intro x hx
    simp [trimSpace_of_all_space x (splitNl_all goIsSpace t h x hx)]
  rw [hfind]

lemma isChapterStart_of_all_space (t : List Char) (h : t.all goIsSpace = true) :
    isChapterStart t = false := by
  have hred : isChapterStart t =
      (if (getFirstLine t).isEmpty then false
       else if chapterLit.isPrefixOf (trimSpace (getFirstLine t)) then
         (if 0 < (trimSpace (dropPfx chapterLit (trimSpace (getFirstLine t)))).length ∧
              (trimSpace (dropPfx chapterLit (trimSpace (getFirstLine t)))).length ≤ 3 then
            (trimSpace (dropPfx chapterLit (trimSpace (getFirstLine t)))).all
              (fun c => decide ('0' ≤ c) && decide (c ≤ '9'))
          else false)
       else false) := rfl
  rw [hred, getFirstLine_of_all_space t h]
  simp

lemma findIdx?_none_of_all (p : List Char → Bool) (ls : List (List Char)) :
    ∀ i : Nat, (∀ x ∈ ls, p x = false) → ls.findIdx? p i = none := by
  induction ls with
  | nil => intro i _; simp [List.findIdx?]
  | cons a rest ih =>
    intro i h
    have ha := h a (List.mem_cons_self a rest)
    simp only [List.findIdx?, ha]
    exact ih (i + 1) fun x hx => h x (List.mem_cons_of_mem a hx)

lemma firstNonBlankIdx_of_all_space (b : List Char) (h : b.all goIsSpace = true) :
    firstNonBlankIdx (splitNl b) = none := by
  unfold firstNonBlankIdx
  apply findIdx?_none_of_all
  intro x hx
  simp [trimSpace_of_all_space x (splitNl_all goIsSpace b h x hx)]

lemma ensureChapterHeading_of_all_space (b : List Char) (n : Nat)
    (h : b.all goIsSpace = true) : ensureChapterHeading b n = b := by
  simp only [ensureChapterHeading]
  rw [firstNonBlankIdx_of_all_space b h]

lemma foldl_blank_inv (pages : List (List Char)) :
    ∀ s : SegState,
      (∀ p ∈ pages, p.all goIsSpace = true) →
      s.buffer.all goIsSpace = true → s.docs = [] → s.chapterCount = 0 →
      ((pages.foldl processPage s).buffer.all goIsSpace = true ∧
        (pages.foldl processPage s).docs = [] ∧
        (pages.foldl processPage s).chapterCount = 0 ∧
        s.buffer.length + pages.length ≤ (pages.foldl processPage s).buffer.length) := by
  induction pages with
  | nil => intro s _ hb hd hc; exact ⟨hb, hd, hc, by simp⟩
  | cons p rest ih =>
    intro s hall hb hd hc
    have hp : p.all goIsSpace = true := hall p (List.mem_cons_self p rest)
    have hclean : (cleanText p).all goIsSpace = true := cleanText_all _ _ hp
    have hstart : isChapterStart (cleanText p) = false := isChapterStart_of_all_space _ hclean
    have hpp : processPage s p =
        { s with buffer := s.buffer ++ cleanText p ++
            (if (cleanText p).getLast? = some '\n' then [] else ['\n']) } := by
      simp [processPage, hstart]
    have hpad : (if (cleanText p).getLast? = some '\n' then ([] : List Char)
        else ['\n']).all goIsSpace = true := by
      split <;> simp [goIsSpace]
    have hbuf : (s.buffer ++ cleanText p ++
        (if (cleanText p).getLast? = some '\n' then [] else ['\n'])).all goIsSpace = true := by
      simp only [List.all_append, Bool.and_eq_true]
      exact ⟨⟨hb, hclean⟩, hpad⟩
    have hgrow : s.buffer.length + 1 ≤ (s.buffer ++ cleanText p ++
        (if (cleanText p).getLast? = some '\n' then [] else ['\n'])).length := by
      by_cases hlast : (cleanText p).getLast? = some '\n'
      · have hne : cleanText p ≠ [] := by
          intro e
          rw [e] at hlast
          simp at hlast
        have := List.length_pos.mpr hne
        simp [hlast, List.length_append]
        omega
      · simp [hlast, List.length_append]
    rw [List.foldl_cons, hpp]
    obtain ⟨a1, a2, a3, a4⟩ := ih
      ({ s with buffer := s.buffer ++ cleanText p ++
          (if (cleanText p).getLast? = some '\n' then [] else ['\n']) })
      (fun q hq => hall q (List.mem_cons_of_mem p hq))
      hbuf (by simpa using hd) (by simpa using hc)
    refine ⟨a1, a2, a3, ?_⟩
    simp only [List.length_cons]
    simp only [List.length_append] at a4 hgrow ⊢
    omega

/-- Claim C1 counterexample: the application loop is not total on
arbitrary edits, even structurally well-formed ones.  The edit
`{offset := -1, length := 0}` with one replacement candidate passes the
source's only guard (`offset+length <= len(corrected)` is `-1 <= 1`),
and the slice expression `corrected[:offset]` then panics at runtime
(modelled as `none`), so a malformed edit is neither skipped nor
survived.  Likewise the non-negative edit `{offset := 2^63 - 1,
length := 1}`: Go's `int` addition wraps `offset+length` to `-2^63`,
the guard passes, and `corrected[:offset]` panics. -/
theorem correctApplier_panics_on_negative_offset :
    applyMatches ['a'] [⟨-1, 0, [['x']]⟩] = none ∧
      applyMatches ['a'] [⟨9223372036854775807, 1, [['x']]⟩] = none := by decide

/-- Claim C1 (amended): for every text and every list of edits whose
offsets and lengths are non-negative and whose sum `offset + length`
does not overflow a 64-bit Go `int` (i.e. is below `2^63`), the
application loop never panics: it returns a result and a count, the
count never exceeds the number of edits, and edits with zero replacement
candidates are skipped without affecting the result (filtering them out
first changes nothing); out-of-range edits fail the bound check and are
likewise skipped uncounted. -/
theorem correctApplier_total_for_nonneg (text : List Char) (ms : List LtMatch)
    (h : ∀ m ∈ ms, 0 ≤ m.offset ∧ 0 ≤ m.length ∧
      m.offset + m.length < 9223372036854775808) :
    (∃ res cnt, applyMatches text ms = some (res, cnt) ∧ cnt ≤ ms.length) ∧
      applyMatches text (ms.filter fun m => !m.replacements.isEmpty) =
        applyMatches text ms :=
  applyLoop_total ms text h

/-- Witness for the amended claim C1 at a concrete input: one in-range
edit, one edit without replacements, one out-of-range edit. -/
theorem correctApplier_total_for_nonneg_witness :
    (∀ m ∈ ([⟨0, 1, [['z']]⟩, ⟨1, 1, []⟩, ⟨5, 1, [['q']]⟩] : List LtMatch),
        0 ≤ m.offset ∧ 0 ≤ m.length ∧
          m.offset + m.length < 9223372036854775808) ∧
      ((∃ res cnt,
          applyMatches "ab".toList [⟨0, 1, [['z']]⟩, ⟨1, 1, []⟩, ⟨5, 1, [['q']]⟩] =
              some (res, cnt) ∧
            cnt ≤ ([⟨0, 1, [['z']]⟩, ⟨1, 1, []⟩, ⟨5, 1, [['q']]⟩] : List LtMatch).length) ∧
        applyMatches "ab".toList
            (([⟨0, 1, [['z']]⟩, ⟨1, 1, []⟩, ⟨5, 1, [['q']]⟩] : List LtMatch).filter
              fun m => !m.replacements.isEmpty) =
          applyMatches "ab".toList [⟨0, 1, [['z']]⟩, ⟨1, 1, []⟩, ⟨5, 1, [['q']]⟩]) :=
  ⟨by decide, correctApplier_total_for_nonneg "ab".toList
    [⟨0, 1, [['z']]⟩, ⟨1, 1, []⟩, ⟨5, 1, [['q']]⟩] (by decide)⟩

/-- Claim C2 counterexample: on the page sequence
`["Intro text", "Chapter 1\nBody A", "Chapter 2\nBody B"]` the
segmentation machine emits three ChapterDocuments, not two: the non-empty
buffer holding "Intro text" is flushed as its own chapter 1 when the
first marker page arrives. -/
theorem segmentation_example_counterexample :
    (segmentPages ["Intro text".toList, "Chapter 1\nBody A".toList,
        "Chapter 2\nBody B".toList]).docs.length = 3 ∧
      (segmentPages ["Intro text".toList, "Chapter 1\nBody A".toList,
        "Chapter 2\nBody B".toList]).docs.length ≠ 2 := by decide

/-- Claim C2 (amended): on that page sequence exactly three
ChapterDocuments are emitted, with ordinals 1, 2 and 3: the leading
"Intro text" becomes chapter 1 on its own (it is flushed, not merged,
when the first marker arrives), and the two marked pages become chapters
2 and 3, each heading-normalized. -/
theorem segmentation_example_amended :
    (segmentPages ["Intro text".toList, "Chapter 1\nBody A".toList,
        "Chapter 2\nBody B".toList]).docs =
      [⟨1, "# Intro text\n".toList⟩, ⟨2, "# Chapter 1\nBody A\n".toList⟩,
        ⟨3, "# Chapter 2\nBody B\n".toList⟩] := by decide

/-- Claim C3 counterexample: applying `{offset := 7, length := 5,
replacement := "earth"}` to `"Hello world"` does not yield
`("Hello earth", 1)`: the span 7+5 = 12 exceeds the text length 11, so
the source's guard skips the edit, returning the text unchanged with
appliedCount 0.  ("world" starts at offset 6, not 7.) -/
theorem applyEdit_offset7_counterexample :
    applyMatches "Hello world".toList [⟨7, 5, ["earth".toList]⟩] =
        some ("Hello world".toList, 0) ∧
      applyMatches "Hello world".toList [⟨7, 5, ["earth".toList]⟩] ≠
        some ("Hello earth".toList, 1) := by decide

/-- Claim C3 (amended): applying the single edit `{offset := 6,
length := 5, replacement := "earth"}` (one replacement candidate) to
`"Hello world"` yields `"Hello earth"` with appliedCount 1. -/
theorem applyEdit_offset6_amended :
    applyMatches "Hello world".toList [⟨6, 5, ["earth".toList]⟩] =
      some ("Hello earth".toList, 1) := by decide

/-- Claim C5 counterexample: heading normalization strips more than three
leading `'#'` characters.  On the buffer `"#### Title"` the source's
`TrimPrefix "###"` then `"##"` then `"#"` chain removes all four hashes,
producing `"# Title"`, while the claim's strip-at-most-three algorithm
(`ensureChapterHeadingSpec 3`) produces `"# # Title"`. -/
theorem ensureChapterHeading_counterexample :
    ensureChapterHeading "#### Title".toList 1 = "# Title".toList ∧
      ensureChapterHeadingSpec 3 "#### Title".toList 1 = "# # Title".toList ∧
      ensureChapterHeading "#### Title".toList 1 ≠
        ensureChapterHeadingSpec 3 "#### Title".toList 1 := by decide

/-- Claim C5 (amended): on emission, heading normalization locates the
first non-blank line, strips up to SIX leading `'#'` characters (the
prefix chain `"###"`, `"##"`, `"#"` removes at most 3+2+1 hashes) and
surrounding whitespace, rewrites that line as `"# "` followed by the
stripped line, and leaves every other line unchanged — i.e. the code
equals the claim's algorithm with the hash budget 3 replaced by 6. -/
theorem ensureChapterHeading_amended (t : List Char) (n : Nat) :
    ensureChapterHeading t n = ensureChapterHeadingSpec 6 t n :=
  ensureChapterHeading_eq_spec6 t n

/-- Claim C6: for every string, `cleanText` equals the one-pass collapse
`collapseRuns` — every run of three or more newlines becomes exactly two
newlines and every other character is kept unchanged and in order — and
its output contains no run of three or more newlines. -/
theorem cleanText_collapses_runs (t : List Char) :
    cleanText t = collapseRuns t ∧ containsTriple (cleanText t) = false :=
  ⟨cleanText_eq_collapseRuns t, containsTriple_cleanText t⟩

/-- Claim C7: `cleanText` is idempotent. -/
theorem cleanText_idempotent (t : List Char) :
    cleanText (cleanText t) = cleanText t :=
  cleanTextFuel_of_no_triple (cleanText t).length (cleanText t)
    (containsTriple_cleanText t)

/-- Claim C8: `isChapterStart` returns true exactly when the first
non-blank line, trimmed, begins with the literal `"Chapter "` and the
trimmed remainder is non-empty, at most 3 characters, and all ASCII
digits; in particular the four near-miss markers from the spec are
rejected. -/
theorem isChapterStart_characterization :
    (∀ t : List Char, isChapterStart t = true ↔ chapterStartSpec t) ∧
      isChapterStart "Chapter 12a".toList = false ∧
      isChapterStart "chapter 1".toList = false ∧
      isChapterStart "Chapter".toList = false ∧
      isChapterStart "Chapter 12: Storm".toList = false :=
  ⟨isChapterStart_iff, by decide, by decide, by decide, by decide⟩

/-- Claim C9 counterexample: the combined artifact is not the
separator-BETWEEN concatenation of the documents.  With a single emitted
chapter the claim's form (`List.intercalate`) is just the document
itself, but the code appends the separator after every document,
including the last. -/
theorem combined_artifact_counterexample :
    (segmentPages ["Hello".toList]).combined =
        "# Hello\n\n\n---\n\n".toList ∧
      (segmentPages ["Hello".toList]).combined ≠
        List.intercalate sepStr
          ((segmentPages ["Hello".toList]).docs.map Chapter.text) := by decide

/-- Claim C9 (amended): for every page sequence, the combined artifact is
the concatenation, in ordinal order (ordinals are 1, 2, …, n), of each
emitted ChapterDocument followed by the separator `"\n\n---\n\n"` (a
`---` line flanked by blank lines) — a separator also trails the final
document. -/
theorem combined_artifact_amended (pages : List (List Char)) :
    (segmentPages pages).combined = combinedJoined (segmentPages pages).docs ∧
      (segmentPages pages).docs.map Chapter.ordinal =
        List.range' 1 (segmentPages pages).docs.length :=
  segmentPages_combined pages

/-- Claim C10: a non-empty stream of pages whose texts are all empty or
whitespace-only yields exactly one ChapterDocument at the final flush,
with ordinal 1; its text is the accumulated all-blank buffer, returned
unchanged by heading normalization (no non-blank line), and non-empty
because every processed page appends at least a trailing newline. -/
theorem blank_pages_single_chapter (pages : List (List Char))
    (hne : pages ≠ []) (hall : ∀ p ∈ pages, p.all goIsSpace = true) :
    ∃ b, (segmentPages pages).docs = [⟨1, b⟩] ∧ b.all goIsSpace = true ∧ b ≠ [] := by
  obtain ⟨a1, a2, a3, a4⟩ := foldl_blank_inv pages initState hall rfl rfl rfl
  set s' := pages.foldl processPage initState with hs'
  have hlen : 0 < s'.buffer.length := by
    have hp : 0 < pages.length := List.length_pos.mpr hne
    simp only [initState, List.length_nil] at a4
    omega
  have hbne : s'.buffer ≠ [] := List.length_pos.mp hlen
  have hnotE : ¬s'.buffer.isEmpty = true := by
    simp [List.isEmpty_iff, hbne]
  refine ⟨s'.buffer, ?_, a1, hbne⟩
  unfold segmentPages
  rw [← hs']
  simp only [processChapter]
  rw [if_neg hnotE]
  simp [a2, a3, ensureChapterHeading_of_all_space s'.buffer 1 a1]

/-- Witness for claim C10 at the concrete one-page stream `[" "]`. -/
theorem blank_pages_single_chapter_witness :
    (([" ".toList] : List (List Char)) ≠ [] ∧
        ∀ p ∈ ([" ".toList] : List (List Char)), p.all goIsSpace = true) ∧
      ∃ b, (segmentPages [" ".toList]).docs = [⟨1, b⟩] ∧
        b.all goIsSpace = true ∧ b ≠ [] :=
  ⟨⟨by decide, by decide⟩,
    blank_pages_single_chapter [" ".toList] (by decide) (by decide)⟩
